import Mathlib

/-!
Verification development for the goauth personal-access-token library.

The embedding below translates the token core of the repository:
  internal/entity/personal_access_token.go  (the persisted record)
  internal/storage/memory.go                (in-memory driver: two maps + auto-increment id)
  internal/storage  gorm driver             (relational driver; delete-by-token delegation)
  internal/utils/crypto.go                  (HashToken, kept abstract as a parameter)
  internal/auth/generator.go                (Create, generateTokenString)
  internal/auth/validator.go                (ValidateToken, the CutPrefix variant)

Go strings are modelled as `List Char`; `time.Time` and `time.Duration` as `Int`
(nanoseconds; `a.After(b)` is the strict `a > b`); `int64` ids as `Int`.
The SHA-256 `utils.HashToken` is an abstract parameter `hashToken : Str → Str` of
every definition that uses it: no property of the digest function is needed by any
statement proved here, so every theorem quantifies over it and in particular covers
the real digest. The CRC-32C checksum of `hash/crc32` (Castagnoli table) and the
hex encoders of `encoding/hex` and `fmt %x/%d` are translated concretely.
-/

namespace GoAuth

/-- Go strings, modelled as their character lists. -/
abbrev Str := List Char

/-- The digit characters used by Go for decimal (`%d`) and lowercase hex
(`%x`, `encoding/hex`): `0`-`9` then `a`-`f`. -/
def digitChar (n : Nat) : Char :=
  if n < 10 then Char.ofNat (48 + n) else Char.ofNat (87 + n)

/-- Fuel-driven core of decimal formatting (most significant digit first);
mirrors Go `%d` on a nonnegative integer. -/
def natDecAux : Nat → Nat → Str → Str
  | 0, _, acc => acc
  | fuel + 1, m, acc =>
    if m < 10 then digitChar m :: acc
    else natDecAux fuel (m / 10) (digitChar (m % 10) :: acc)

/-- Decimal rendering of a natural number, as Go `%d` prints it. -/
def natDec (n : Nat) : Str := natDecAux (n + 1) n []

/-- Decimal rendering of an `int64`, as Go `%d` prints it. -/
def intDec : Int → Str
  | Int.ofNat n => natDec n
  | Int.negSucc n => '-' :: natDec (n + 1)

/-- Fuel-driven core of minimal lowercase hex formatting; mirrors Go `%x`
on an unsigned integer (no leading zero padding, `0` prints as `0`). -/
def natHexAux : Nat → Nat → Str → Str
  | 0, _, acc => acc
  | fuel + 1, m, acc =>
    if m < 16 then digitChar m :: acc
    else natHexAux fuel (m / 16) (digitChar (m % 16) :: acc)

/-- Minimal lowercase hex rendering, as Go `%x` prints a `uint32`. -/
def natHex (n : Nat) : Str := natHexAux (n + 1) n []

/-- `hex.EncodeToString`: each byte becomes two lowercase hex digits,
high nibble first. -/
def hexEncodeBytes : List Nat → Str
  | [] => []
  | b :: bs => digitChar (b / 16) :: digitChar (b % 16) :: hexEncodeBytes bs

/-- One bit step of the CRC-32 division with the reversed Castagnoli
polynomial `0x82F63B78`, as used by `crc32.MakeTable(crc32.Castagnoli)`. -/
def crcStepBit (c : Nat) : Nat :=
  if c % 2 = 1 then (c / 2) ^^^ 0x82F63B78 else c / 2

/-- The Castagnoli table entry for one byte: eight bit steps. -/
def crcTab (n : Nat) : Nat :=
  crcStepBit (crcStepBit (crcStepBit (crcStepBit
    (crcStepBit (crcStepBit (crcStepBit (crcStepBit n)))))))

/-- One byte update of the CRC state, as in Go `crc32.simpleUpdate`:
`crc = tab[byte(crc)^b] ^ (crc >> 8)`.  For a byte `b`,
`byte(crc)^b = byte(crc^b)`, written here as `(state ^^^ b) % 256`. -/
def crcUpdate (state b : Nat) : Nat :=
  crcTab ((state ^^^ b) % 256) ^^^ (state / 256)

/-- `crc32.Checksum(data, MakeTable(Castagnoli))`: complement, fold the
byte updates, complement again (complement of a `uint32` is xor with
`0xFFFFFFFF`).  The inputs in this development are ASCII strings, whose
bytes are exactly the character codes. -/
def crc32c (s : Str) : Nat :=
  (s.foldl (fun st c => crcUpdate st c.toNat) 0xFFFFFFFF) ^^^ 0xFFFFFFFF

/-- `strings.Split(s, sep)` for a one-character separator: the list of
(possibly empty) chunks between separators; the empty string yields one
empty chunk, matching Go. -/
def splitOnChar (sep : Char) : Str → List Str
  | [] => [[]]
  | c :: rest =>
    if c = sep then [] :: splitOnChar sep rest
    else
      match splitOnChar sep rest with
      | [] => [[c]]
      | h :: t => (c :: h) :: t

/-- Whether `p` is a prefix of `s` (the test inside `strings.CutPrefix`). -/
def isPrefixList : Str → Str → Bool
  | [], _ => true
  | _ :: _, [] => false
  | p :: ps, c :: cs => p == c && isPrefixList ps cs

/-- `strings.CutPrefix(s, p)` collapsed to the way the validator uses it:
the suffix after `p` when `p` is a leading prefix of `s`, otherwise `s`. -/
def cutPref (p s : Str) : Str :=
  if isPrefixList p s then s.drop p.length else s

/-- Decidable equality for `Except`, so that concrete runs of the
modelled operations can be checked by evaluation. -/
instance {ε α : Type} [DecidableEq ε] [DecidableEq α] : DecidableEq (Except ε α) :=
  fun a b =>
    match a, b with
    | .error x, .error y =>
      if h : x = y then isTrue (by subst h; rfl)
      else isFalse (fun hc => h (Except.error.inj hc))
    | .error _, .ok _ => isFalse (fun hc => Except.noConfusion hc)
    | .ok _, .error _ => isFalse (fun hc => Except.noConfusion hc)
    | .ok x, .ok y =>
      if h : x = y then isTrue (by subst h; rfl)
      else isFalse (fun hc => h (Except.ok.inj hc))

/-- The persisted record, `entity.PersonalAccessToken`
(internal/entity/personal_access_token.go). -/
structure PersonalAccessToken where
  id : Int
  userId : Int
  token : Str
  name : Option Str
  abilities : Str
  createdAt : Int
  expiresAt : Option Int
  lastUsedAt : Option Int
deriving Repr, DecidableEq

/-- The distinct error values the modelled operations can return:
`utils.ErrTokenNotFound` / `errors.New("token not found")`,
`utils.ErrTokenExpired` / `errors.New("token expired")`,
`auth.ErrTokenInvalid` ("token is invalid or expired", also the invalid
format error), and the generator's "no storage backend configured"
(`utils.ErrStorageDriverNil`). -/
inductive AuthErr where
  | tokenNotFound
  | tokenExpired
  | tokenInvalid
  | storageDriverNil
deriving Repr, DecidableEq

/-- First-match association-list lookup: observationally a Go map read,
given that insertion conses the newest binding to the front. -/
def alistLookup {α β : Type} [DecidableEq α] (k : α) : List (α × β) → Option β
  | [] => none
  | (k2, v) :: rest => if k2 = k then some v else alistLookup k rest

/-- Remove every binding of key `k`: observationally a Go map `delete`. -/
def alistErase {α β : Type} [DecidableEq α] (k : α) : List (α × β) → List (α × β)
  | [] => []
  | (k2, v) :: rest =>
    if k2 = k then alistErase k rest else (k2, v) :: alistErase k rest

/-- The in-memory driver state (internal/storage/memory.go): the by-hash
map, the by-id map, and the auto-increment counter `nextID`. -/
structure MemState where
  tokensByHash : List (Str × PersonalAccessToken)
  tokensByID : List (Int × PersonalAccessToken)
  nextID : Int
deriving Repr, DecidableEq

/-- `NewMemoryDriver`: empty maps, `nextID = 1`. -/
def newMemoryDriver : MemState := ⟨[], [], 1⟩

/-- `memoryDriver.StoreToken`: assign `nextID` (and bump it) when the
record arrives with `ID == 0`, then write the record into both maps.  The
source always returns a nil error; the returned record models the
caller-visible in-place mutation of `t.ID`. -/
def MemState.storeToken (m : MemState) (t : PersonalAccessToken) :
    MemState × PersonalAccessToken :=
  let t2 := if t.id = 0 then { t with id := m.nextID } else t
  let next := if t.id = 0 then m.nextID + 1 else m.nextID
  (⟨(t2.token, t2) :: m.tokensByHash, (t2.id, t2) :: m.tokensByID, next⟩, t2)

/-- `memoryDriver.FindByHash`: not-found on a missing key, expired when
`ExpiresAt != nil && time.Now().After(*ExpiresAt)` (strict), otherwise the
record. -/
def MemState.findByHash (m : MemState) (now : Int) (h : Str) :
    Except AuthErr PersonalAccessToken :=
  match alistLookup h m.tokensByHash with
  | none => .error .tokenNotFound
  | some tok =>
    match tok.expiresAt with
    | some e => if now > e then .error .tokenExpired else .ok tok
    | none => .ok tok

/-- `memoryDriver.RevokeToken`: not-found on a missing key, otherwise
delete the record from both maps (`nextID` untouched). -/
def MemState.revokeToken (m : MemState) (h : Str) : Except AuthErr MemState :=
  match alistLookup h m.tokensByHash with
  | none => .error .tokenNotFound
  | some tok =>
    .ok ⟨alistErase h m.tokensByHash, alistErase tok.id m.tokensByID, m.nextID⟩

/-- The relational driver's table: the rows of `personal_access_tokens`. -/
structure GormState where
  rows : List PersonalAccessToken
deriving Repr, DecidableEq

/-- `gormDriver.RevokeToken` delegates to
`db.Delete(&entity.PersonalAccessToken{}, "token = ?", hash)`.  GORM's
`Delete` deletes every matching row and reports a nil error even when no
row matches (only an underlying database failure, not modelled here,
would set `.Error`), so the operation always succeeds. -/
def GormState.revokeToken (g : GormState) (h : Str) : Except AuthErr GormState :=
  .ok ⟨g.rows.filter (fun r => !(r.token == h))⟩

/-- The configuration fields consumed by the token core
(config.Config); the signing fields are unused by the generate/validate/
revoke paths and are omitted. -/
structure Config where
  tokenLength : Nat
  tokenPref : Str
  expireAt : Int
deriving Repr, DecidableEq

/-- `auth.TokenOptions` (the storage/config wiring is passed separately). -/
structure TokenOptions where
  userId : Int
  name : Option Str
  abilities : List Str
deriving Repr, DecidableEq

/-- `strings.Join(parts, ",")`. -/
def joinComma : List Str → Str
  | [] => []
  | [a] => a
  | a :: rest => a ++ ',' :: joinComma rest

/-- `auth.Result`: the client-facing plaintext token and the stored hash. -/
structure CreateResult where
  plainText : Str
  tokenID : Str
deriving Repr, DecidableEq

/-- `generator.generateTokenString`: hex-encode the random bytes, append
the CRC-32C of the hex string in minimal hex, put the configured prefix in
front (`fmt.Sprintf("%s%s%x", prefix, raw, crc)`).  The random buffer of
`cfg.TokenLength` bytes is an explicit argument. -/
def generateTokenString (cfg : Config) (buf : List Nat) : Str :=
  let raw := hexEncodeBytes buf
  let crc := crc32c raw
  cfg.tokenPref ++ raw ++ natHex crc

/-- `generator.Create` (internal/auth/generator.go): fail when no storage
backend is configured; otherwise build the record (`UserId`, joined
`Abilities`, `CreatedAt = now`, `ExpiresAt = now + cfg.ExpireAt` when the
duration is positive, hashed token), store it, and return
`fmt.Sprintf("%d|%s", t.ID, plainText)` with the stored hash. -/
def generatorCreate (hashToken : Str → Str) (cfg : Config)
    (st0 : Option MemState) (opts : TokenOptions) (buf : List Nat)
    (now : Int) : Except AuthErr (CreateResult × MemState) :=
  match st0 with
  | none => .error .storageDriverNil
  | some st =>
    let plainText := generateTokenString cfg buf
    let hashed := hashToken plainText
    let expireAt : Option Int :=
      if cfg.expireAt > 0 then some (now + cfg.expireAt) else none
    let t : PersonalAccessToken :=
      { id := 0, userId := opts.userId, token := hashed, name := opts.name,
        abilities := joinComma opts.abilities, createdAt := now,
        expiresAt := expireAt, lastUsedAt := none }
    let res := st.storeToken t
    .ok (⟨intDec res.2.id ++ '|' :: plainText, hashed⟩, res.1)

/-- `auth.ValidateToken` (the CutPrefix variant of
internal/auth/validator.go): strip one optional leading `"Bearer "`,
split on `|` demanding exactly two parts (else `ErrTokenInvalid`), hash
the second part, look it up, propagate storage errors, defensively
re-check the stored hash (`ErrTokenInvalid` on mismatch), re-check expiry
strictly (`ErrTokenExpired`), and return the record.  The asynchronous
`TouchLastUsed` is fire-and-forget and never affects the result, so it is
not part of the returned value. -/
def validateToken (hashToken : Str → Str) (st : MemState) (now : Int)
    (raw : Str) : Except AuthErr PersonalAccessToken :=
  match splitOnChar '|' (cutPref "Bearer ".data raw) with
  | [_, secret] =>
    let hashed := hashToken secret
    match st.findByHash now hashed with
    | .error e => .error e
    | .ok tok =>
      if tok.token ≠ hashed then .error .tokenInvalid
      else
        match tok.expiresAt with
        | some e => if now > e then .error .tokenExpired else .ok tok
        | none => .ok tok
  | _ => .error .tokenInvalid

/-- `validateToken` with the defensive hash re-check deleted, used only to
state that the mismatch branch is unreachable over in-memory driver
states (claim C10); otherwise identical to `validateToken`. -/
def validateTokenND (hashToken : Str → Str) (st : MemState) (now : Int)
    (raw : Str) : Except AuthErr PersonalAccessToken :=
  match splitOnChar '|' (cutPref "Bearer ".data raw) with
  | [_, secret] =>
    let hashed := hashToken secret
    match st.findByHash now hashed with
    | .error e => .error e
    | .ok tok =>
      match tok.expiresAt with
      | some e => if now > e then .error .tokenExpired else .ok tok
      | none => .ok tok
  | _ => .error .tokenInvalid

/-- A storage-level operation on the in-memory driver (the two mutating
operations the id-assignment claims quantify over). -/
inductive MemOp where
  | store (t : PersonalAccessToken)
  | revoke (h : Str)
deriving Repr

/-- Apply one operation; a failed revoke leaves the state unchanged. -/
def MemState.applyOp (m : MemState) : MemOp → MemState
  | .store t => (m.storeToken t).1
  | .revoke h =>
    match m.revokeToken h with
    | .ok m2 => m2
    | .error _ => m

/-- Run a sequence of operations left to right. -/
def runOps (m : MemState) : List MemOp → MemState
  | [] => m
  | op :: ops => runOps (m.applyOp op) ops

/-- The ids the driver itself assigns along a run: one per store whose
record arrives with `ID == 0`, in order. -/
def assignedIds (m : MemState) : List MemOp → List Int
  | [] => []
  | .store t :: ops =>
    if t.id = 0 then m.nextID :: assignedIds (m.applyOp (.store t)) ops
    else assignedIds (m.applyOp (.store t)) ops
  | .revoke h :: ops => assignedIds (m.applyOp (.revoke h)) ops

/-- States an in-memory driver instance can be in: everything reachable
from `NewMemoryDriver()` by store/revoke operations. -/
def Reachable (m : MemState) : Prop := ∃ ops, runOps newMemoryDriver ops = m

/-! ### Splitting and prefix lemmas -/

theorem splitOnChar_ne_nil (sep : Char) (s : Str) : splitOnChar sep s ≠ [] := by
  induction s with
  | nil => simp [splitOnChar]
  | cons c rest ih =>
    by_cases h : c = sep
    · simp [splitOnChar, h]
    · simp only [splitOnChar, if_neg h]
      cases hr : splitOnChar sep rest with
      | nil => simp
      | cons a t => simp

theorem splitOnChar_no_sep {sep : Char} {s : Str} (h : sep ∉ s) :
    splitOnChar sep s = [s] := by
  induction s with
  | nil => rfl
  | cons c rest ih =>
    have hc : ¬ c = sep := fun e => h (by simp [e])
    have hrest : sep ∉ rest := fun m => h (List.mem_cons_of_mem _ m)
    simp [splitOnChar, hc, ih hrest]

theorem splitOnChar_append {sep : Char} {a b : Str} (h : sep ∉ a) :
    splitOnChar sep (a ++ sep :: b) = a :: splitOnChar sep b := by
  induction a with
  | nil => simp [splitOnChar]
  | cons c rest ih =>
    have hc : ¬ c = sep := fun e => h (by simp [e])
    have hrest : sep ∉ rest := fun m => h (List.mem_cons_of_mem _ m)
    simp only [List.cons_append, splitOnChar, if_neg hc, List.append_eq]
    rw [ih hrest]

theorem splitOnChar_head_extend (sep : Char) (p s : Str) (h : sep ∉ p) :
    ∃ h0 t0, splitOnChar sep s = h0 :: t0 ∧
      splitOnChar sep (p ++ s) = (p ++ h0) :: t0 := by
  induction p with
  | nil =>
    cases hs : splitOnChar sep s with
    | nil => exact absurd hs (splitOnChar_ne_nil sep s)
    | cons h0 t0 => exact ⟨h0, t0, rfl, by simp [hs]⟩
  | cons c rest ih =>
    have hc : ¬ c = sep := fun e => h (by simp [e])
    have hrest : sep ∉ rest := fun m => h (List.mem_cons_of_mem _ m)
    obtain ⟨h0, t0, hs, hps⟩ := ih hrest
    exact ⟨h0, t0, hs, by simp [splitOnChar, hps, if_neg hc]⟩

theorem isPrefixList_self_append (p s : Str) : isPrefixList p (p ++ s) = true := by
  induction p with
  | nil => rfl
  | cons c rest ih => simp [isPrefixList, ih]

theorem exists_of_isPrefixList {p : Str} : ∀ {s : Str},
    isPrefixList p s = true → ∃ r, s = p ++ r := by
  induction p with
  | nil => exact fun {s} _ => ⟨s, rfl⟩
  | cons c rest ih =>
    intro s h
    cases s with
    | nil => simp [isPrefixList] at h
    | cons c2 s2 =>
      simp only [isPrefixList, Bool.and_eq_true, beq_iff_eq] at h
      obtain ⟨r, hr⟩ := ih h.2
      exact ⟨r, by simp [h.1, hr]⟩

theorem cutPref_self_append (p s : Str) : cutPref p (p ++ s) = s := by
  simp [cutPref, isPrefixList_self_append, List.drop_left]

theorem cutPref_of_neg {p s : Str} (h : isPrefixList p s = false) :
    cutPref p s = s := by
  simp [cutPref, h]

/-! ### Digit and rendering lemmas -/

theorem digitChar_ne_bar : ∀ k, k < 16 → digitChar k ≠ '|' := by decide

theorem digitChar_ne_bchar : ∀ k, k < 10 → digitChar k ≠ 'B' := by decide

theorem natDecAux_head (fuel : Nat) : ∀ (m : Nat) (acc : Str), 0 < fuel →
    ∃ k rest, k < 10 ∧ natDecAux fuel m acc = digitChar k :: rest := by
  induction fuel with
  | zero => exact fun m acc h => absurd h (lt_irrefl 0)
  | succ f ih =>
    intro m acc _
    by_cases hm : m < 10
    · exact ⟨m, acc, hm, by simp [natDecAux, hm]⟩
    · rcases Nat.eq_zero_or_pos f with hf | hf
      · subst hf
        exact ⟨m % 10, acc, Nat.mod_lt _ (by norm_num), by simp [natDecAux, hm]⟩
      · obtain ⟨k, rest, hk, he⟩ := ih (m / 10) (digitChar (m % 10) :: acc) hf
        exact ⟨k, rest, hk, by simp [natDecAux, hm, he]⟩

theorem natDecAux_chars (fuel : Nat) : ∀ (m : Nat) (acc : Str) (c : Char),
    c ∈ natDecAux fuel m acc → (∃ k, k < 10 ∧ c = digitChar k) ∨ c ∈ acc := by
  induction fuel with
  | zero => exact fun m acc c hc => Or.inr hc
  | succ f ih =>
    intro m acc c hc
    by_cases hm : m < 10
    · simp only [natDecAux, if_pos hm, List.mem_cons] at hc
      rcases hc with h | h
      · exact Or.inl ⟨m, hm, h⟩
      · exact Or.inr h
    · simp only [natDecAux, if_neg hm] at hc
      rcases ih _ _ _ hc with h | h
      · exact Or.inl h
      · rcases List.mem_cons.mp h with h2 | h2
        · exact Or.inl ⟨m % 10, Nat.mod_lt _ (by norm_num), h2⟩
        · exact Or.inr h2

theorem natHexAux_chars (fuel : Nat) : ∀ (m : Nat) (acc : Str) (c : Char),
    c ∈ natHexAux fuel m acc → (∃ k, k < 16 ∧ c = digitChar k) ∨ c ∈ acc := by
  induction fuel with
  | zero => exact fun m acc c hc => Or.inr hc
  | succ f ih =>
    intro m acc c hc
    by_cases hm : m < 16
    · simp only [natHexAux, if_pos hm, List.mem_cons] at hc
      rcases hc with h | h
      · exact Or.inl ⟨m, hm, h⟩
      · exact Or.inr h
    · simp only [natHexAux, if_neg hm] at hc
      rcases ih _ _ _ hc with h | h
      · exact Or.inl h
      · rcases List.mem_cons.mp h with h2 | h2
        · exact Or.inl ⟨m % 16, Nat.mod_lt _ (by norm_num), h2⟩
        · exact Or.inr h2

theorem natDec_head (n : Nat) : ∃ k rest, k < 10 ∧ natDec n = digitChar k :: rest :=
  natDecAux_head (n + 1) n [] (Nat.succ_pos n)

theorem intDec_first (i : Int) :
    ∃ c rest, intDec i = c :: rest ∧ c ≠ 'B' ∧ c ≠ '|' := by
  cases i with
  | ofNat n =>
    obtain ⟨k, rest, hk, he⟩ := natDec_head n
    exact ⟨digitChar k, rest, by simp [intDec, he], digitChar_ne_bchar k hk,
      digitChar_ne_bar k (lt_trans hk (by norm_num))⟩
  | negSucc n => exact ⟨'-', natDec (n + 1), rfl, by decide, by decide⟩

theorem bar_not_mem_natDec (n : Nat) : '|' ∉ natDec n := by
  intro h
  rcases natDecAux_chars (n + 1) n [] '|' h with ⟨k, hk, he⟩ | h2
  · exact digitChar_ne_bar k (lt_trans hk (by norm_num)) he.symm
  · exact absurd h2 (List.not_mem_nil '|')

theorem bar_not_mem_intDec (i : Int) : '|' ∉ intDec i := by
  cases i with
  | ofNat n => exact bar_not_mem_natDec n
  | negSucc n =>
    intro h
    rcases List.mem_cons.mp h with h2 | h2
    · exact absurd h2 (by decide)
    · exact bar_not_mem_natDec (n + 1) h2

theorem bar_not_mem_natHex (n : Nat) : '|' ∉ natHex n := by
  intro h
  rcases natHexAux_chars (n + 1) n [] '|' h with ⟨k, hk, he⟩ | h2
  · exact digitChar_ne_bar k hk he.symm
  · exact absurd h2 (List.not_mem_nil '|')

theorem hexEncodeBytes_chars : ∀ {bs : List Nat}, (∀ b ∈ bs, b < 256) →
    ∀ c ∈ hexEncodeBytes bs, ∃ k, k < 16 ∧ c = digitChar k := by
  intro bs
  induction bs with
  | nil => exact fun _ c hc => absurd hc (List.not_mem_nil c)
  | cons b rest ih =>
    intro hb c hc
    have hdiv : b / 16 < 16 := by have := hb b (by simp); omega
    have hmod : b % 16 < 16 := Nat.mod_lt _ (by norm_num)
    simp only [hexEncodeBytes, List.mem_cons] at hc
    rcases hc with h | h | h
    · exact ⟨b / 16, hdiv, h⟩
    · exact ⟨b % 16, hmod, h⟩
    · exact ih (fun x hx => hb x (by simp [hx])) c h

theorem bar_not_mem_hexEncode {bs : List Nat} (hb : ∀ b ∈ bs, b < 256) :
    '|' ∉ hexEncodeBytes bs := by
  intro h
  obtain ⟨k, hk, he⟩ := hexEncodeBytes_chars hb '|' h
  exact digitChar_ne_bar k hk he.symm

theorem hexEncodeBytes_length (bs : List Nat) :
    (hexEncodeBytes bs).length = 2 * bs.length := by
  induction bs with
  | nil => rfl
  | cons b rest ih => simp [hexEncodeBytes, ih]; omega

theorem bearer_data : "Bearer ".data = ['B', 'e', 'a', 'r', 'e', 'r', ' '] := rfl

theorem isPrefixList_bearer_intDec (i : Int) (r : Str) :
    isPrefixList "Bearer ".data (intDec i ++ r) = false := by
  obtain ⟨c, rest, he, hB, _⟩ := intDec_first i
  rw [he, bearer_data]
  simp [isPrefixList, beq_false_of_ne (Ne.symm hB)]

/-! ### Association-list lemmas -/

theorem alistLookup_cons_self {α β : Type} [DecidableEq α] (k : α) (v : β)
    (l : List (α × β)) : alistLookup k ((k, v) :: l) = some v := by
  simp [alistLookup]

theorem alistLookup_mem {α β : Type} [DecidableEq α] {k : α} {v : β} :
    ∀ {l : List (α × β)}, alistLookup k l = some v → (k, v) ∈ l := by
  intro l
  induction l with
  | nil => intro h; simp [alistLookup] at h
  | cons p rest ih =>
    intro h
    obtain ⟨k2, v2⟩ := p
    by_cases hk : k2 = k
    · subst hk
      rw [alistLookup_cons_self] at h
      injection h with h2
      subst h2
      exact List.mem_cons_self _ _
    · simp only [alistLookup, if_neg hk] at h
      exact List.mem_cons_of_mem _ (ih h)

theorem alistErase_subset {α β : Type} [DecidableEq α] {k : α} {p : α × β} :
    ∀ {l : List (α × β)}, p ∈ alistErase k l → p ∈ l := by
  intro l
  induction l with
  | nil => intro h; simp [alistErase] at h
  | cons q rest ih =>
    intro h
    obtain ⟨k2, v2⟩ := q
    by_cases hk : k2 = k
    · simp only [alistErase, if_pos hk] at h
      exact List.mem_cons_of_mem _ (ih h)
    · simp only [alistErase, if_neg hk, List.mem_cons] at h
      rcases h with h | h
      · exact h ▸ List.mem_cons_self _ _
      · exact List.mem_cons_of_mem _ (ih h)

theorem alistLookup_erase_self {α β : Type} [DecidableEq α] (k : α) :
    ∀ (l : List (α × β)), alistLookup k (alistErase k l) = none := by
  intro l
  induction l with
  | nil => rfl
  | cons p rest ih =>
    obtain ⟨k2, v2⟩ := p
    by_cases hk : k2 = k
    · simp [alistErase, hk, ih]
    · simp [alistErase, alistLookup, hk, ih]

/-! ### CRC remains a 32-bit value -/

theorem crcStepBit_lt {c : Nat} (h : c < 2 ^ 32) : crcStepBit c < 2 ^ 32 := by
  unfold crcStepBit
  by_cases h2 : c % 2 = 1
  · simp only [if_pos h2]
    exact Nat.xor_lt_two_pow (by omega) (by norm_num)
  · simp only [if_neg h2]
    omega

theorem crcTab_lt {n : Nat} (h : n < 2 ^ 32) : crcTab n < 2 ^ 32 :=
  crcStepBit_lt (crcStepBit_lt (crcStepBit_lt (crcStepBit_lt
    (crcStepBit_lt (crcStepBit_lt (crcStepBit_lt (crcStepBit_lt h)))))))

theorem crcUpdate_lt {st : Nat} (b : Nat) (h : st < 2 ^ 32) :
    crcUpdate st b < 2 ^ 32 := by
  unfold crcUpdate
  exact Nat.xor_lt_two_pow
    (crcTab_lt (lt_of_lt_of_le (Nat.mod_lt _ (by norm_num)) (by norm_num)))
    (by omega)

theorem crc_foldl_lt (s : Str) : ∀ (st : Nat), st < 2 ^ 32 →
    s.foldl (fun st c => crcUpdate st c.toNat) st < 2 ^ 32 := by
  induction s with
  | nil => exact fun st h => h
  | cons c rest ih => exact fun st h => ih _ (crcUpdate_lt _ h)

theorem crc32c_lt (s : Str) : crc32c s < 2 ^ 32 := by
  unfold crc32c
  exact Nat.xor_lt_two_pow (crc_foldl_lt s _ (by norm_num)) (by norm_num)

/-! ### The shape of a freshly created token -/

/-- The record `generator.Create` hands to `StoreToken`, after the driver
has assigned it the id `st.nextID`. -/
def createdRecord (hashToken : Str → Str) (cfg : Config) (st : MemState)
    (opts : TokenOptions) (buf : List Nat) (now : Int) : PersonalAccessToken :=
  { id := st.nextID, userId := opts.userId,
    token := hashToken (generateTokenString cfg buf), name := opts.name,
    abilities := joinComma opts.abilities, createdAt := now,
    expiresAt := if cfg.expireAt > 0 then some (now + cfg.expireAt) else none,
    lastUsedAt := none }

theorem generatorCreate_eq (hashToken : Str → Str) (cfg : Config) (st : MemState)
    (opts : TokenOptions) (buf : List Nat) (now : Int) :
    generatorCreate hashToken cfg (some st) opts buf now =
      .ok (⟨intDec st.nextID ++ '|' :: generateTokenString cfg buf,
            hashToken (generateTokenString cfg buf)⟩,
           ⟨(hashToken (generateTokenString cfg buf),
              createdRecord hashToken cfg st opts buf now) :: st.tokensByHash,
            (st.nextID, createdRecord hashToken cfg st opts buf now) :: st.tokensByID,
            st.nextID + 1⟩) := by
  simp [generatorCreate, MemState.storeToken, createdRecord]

theorem bar_not_mem_generateTokenString {cfg : Config} {buf : List Nat}
    (hp : '|' ∉ cfg.tokenPref) (hb : ∀ b ∈ buf, b < 256) :
    '|' ∉ generateTokenString cfg buf := by
  unfold generateTokenString
  intro h
  rcases List.mem_append.mp h with h2 | h2
  · rcases List.mem_append.mp h2 with h3 | h3
    · exact hp h3
    · exact bar_not_mem_hexEncode hb h3
  · exact bar_not_mem_natHex _ h2

theorem split_created (i : Int) (plain : Str) (hplain : '|' ∉ plain) :
    splitOnChar '|' (cutPref "Bearer ".data (intDec i ++ '|' :: plain)) =
      [intDec i, plain] := by
  rw [cutPref_of_neg (isPrefixList_bearer_intDec i _),
    splitOnChar_append (bar_not_mem_intDec i), splitOnChar_no_sep hplain]

/-- Evaluating the validator once the raw string is known to parse into
exactly two chunks. -/
theorem validateToken_resolved (hashToken : Str → Str) (st : MemState)
    (now : Int) (raw : Str) {a secret : Str}
    (hs : splitOnChar '|' (cutPref "Bearer ".data raw) = [a, secret]) :
    validateToken hashToken st now raw =
      match st.findByHash now (hashToken secret) with
      | .error e => .error e
      | .ok tok =>
        if tok.token ≠ hashToken secret then .error .tokenInvalid
        else
          match tok.expiresAt with
          | some e => if now > e then .error .tokenExpired else .ok tok
          | none => .ok tok := by
  simp only [validateToken, hs]

/-- Validating the canonical `"<id>|<plain>"` string against a state whose
newest by-hash binding is the matching record. -/
theorem validateToken_cons_head (hashToken : Str → Str)
    (rec : PersonalAccessToken) (restH : List (Str × PersonalAccessToken))
    (restI : List (Int × PersonalAccessToken)) (nid : Int) (now i : Int)
    (plain : Str) (hbar : '|' ∉ plain) (htok : rec.token = hashToken plain)
    (hexp : ∀ e, rec.expiresAt = some e → now ≤ e) :
    validateToken hashToken ⟨(hashToken plain, rec) :: restH, restI, nid⟩ now
      (intDec i ++ '|' :: plain) = .ok rec := by
  rw [validateToken_resolved hashToken _ now _ (split_created i plain hbar)]
  rcases hE : rec.expiresAt with _ | e
  · have hfind : MemState.findByHash
        ⟨(hashToken plain, rec) :: restH, restI, nid⟩ now (hashToken plain)
        = .ok rec := by
      simp [MemState.findByHash, alistLookup_cons_self, hE]
    simp only [hfind]
    rw [if_neg (not_not_intro htok)]
    simp [hE]
  · have hle := hexp e hE
    have hfind : MemState.findByHash
        ⟨(hashToken plain, rec) :: restH, restI, nid⟩ now (hashToken plain)
        = .ok rec := by
      simp [MemState.findByHash, alistLookup_cons_self, hE, not_lt.mpr hle]
    simp only [hfind]
    rw [if_neg (not_not_intro htok)]
    simp [hE, if_neg (not_lt.mpr hle)]

/-! ### Claim C2 -/

/-- C2 (amended): revoking an absent digest returns TokenNotFound on the
in-memory backend, and a second revoke of the same digest fails; the
relational backend's revokeToken instead always reports success (GORM's
delete of zero rows sets no error), so the claimed TokenNotFound failure
does not happen there. -/
theorem c2_revoke_absent_semantics :
    (∀ (m : MemState) (h : Str), alistLookup h m.tokensByHash = none →
      m.revokeToken h = .error AuthErr.tokenNotFound)
    ∧ (∀ (m m2 : MemState) (h : Str), m.revokeToken h = .ok m2 →
      m2.revokeToken h = .error AuthErr.tokenNotFound)
    ∧ (∀ (g : GormState) (h : Str),
      g.revokeToken h = .ok ⟨g.rows.filter (fun r => !(r.token == h))⟩) := by
  refine ⟨?_, ?_, fun g h => rfl⟩
  · intro m h hl
    unfold MemState.revokeToken
    rw [hl]
  · intro m m2 h hr
    unfold MemState.revokeToken at hr ⊢
    cases hl : alistLookup h m.tokensByHash with
    | none => rw [hl] at hr; exact Except.noConfusion hr
    | some tok =>
      rw [hl] at hr
      injection hr with h2
      subst h2
      rw [alistLookup_erase_self]

/-- C2, counterexample to the claim as stated: on the relational backend
with an empty table, revoking an absent digest succeeds (nil error)
instead of failing with TokenNotFound. -/
theorem c2_counterexample :
    GormState.revokeToken ⟨[]⟩ ['a'] = .ok ⟨[]⟩ ∧
    GormState.revokeToken ⟨[]⟩ ['a'] ≠ .error AuthErr.tokenNotFound := by
  exact ⟨rfl, by decide⟩

/-- C2, witness: concrete instances of the three amended conjuncts. -/
theorem c2_witness :
    MemState.revokeToken ⟨[], [], 1⟩ ['x'] = .error AuthErr.tokenNotFound ∧
    MemState.revokeToken ⟨[], [], 2⟩ ['x'] = .error AuthErr.tokenNotFound ∧
    GormState.revokeToken ⟨[]⟩ ['x'] = .ok ⟨[]⟩ :=
  ⟨c2_revoke_absent_semantics.1 ⟨[], [], 1⟩ ['x'] rfl,
   c2_revoke_absent_semantics.2.1
     ⟨[(['x'], ⟨1, 7, ['x'], none, [], 0, none, none⟩)],
      [(1, ⟨1, 7, ['x'], none, [], 0, none, none⟩)], 2⟩ ⟨[], [], 2⟩ ['x'] rfl,
   c2_revoke_absent_semantics.2.2 ⟨[]⟩ ['x']⟩

/-! ### Claim C4 -/

/-- C4 (amended): the in-memory storeToken never fails; when the record's
hash is already present it silently overwrites: the by-hash binding now
yields the newly stored record (same token key, the new record's data). -/
theorem c4_store_overwrites (m : MemState) (t v : PersonalAccessToken)
    (_hl : alistLookup t.token m.tokensByHash = some v) :
    alistLookup t.token ((m.storeToken t).1).tokensByHash
        = some ((m.storeToken t).2)
    ∧ ((m.storeToken t).2).userId = t.userId
    ∧ ((m.storeToken t).2).token = t.token := by
  unfold MemState.storeToken
  by_cases hid : t.id = 0 <;> simp [hid, alistLookup_cons_self]

/-- C4, counterexample to the claim as stated: storing a second record
with an already-present hash returns no StorageFailure (the operation is
infallible) and replaces the stored record — lookup now returns the
second record. -/
theorem c4_counterexample :
    alistLookup ['h']
        ((MemState.storeToken
          ⟨[(['h'], ⟨1, 1, ['h'], none, [], 0, none, none⟩)],
           [(1, ⟨1, 1, ['h'], none, [], 0, none, none⟩)], 2⟩
          ⟨0, 2, ['h'], none, [], 0, none, none⟩).1).tokensByHash
      = some ⟨2, 2, ['h'], none, [], 0, none, none⟩ := by decide

/-- C4, witness for the amended theorem at a concrete duplicate store. -/
theorem c4_witness :
    alistLookup ['h']
        ((MemState.storeToken
          ⟨[(['h'], ⟨1, 1, ['h'], none, [], 0, none, none⟩)],
           [(1, ⟨1, 1, ['h'], none, [], 0, none, none⟩)], 2⟩
          ⟨0, 2, ['h'], none, [], 0, none, none⟩).1).tokensByHash
      = some ((MemState.storeToken
          ⟨[(['h'], ⟨1, 1, ['h'], none, [], 0, none, none⟩)],
           [(1, ⟨1, 1, ['h'], none, [], 0, none, none⟩)], 2⟩
          ⟨0, 2, ['h'], none, [], 0, none, none⟩).2) :=
  (c4_store_overwrites
    ⟨[(['h'], ⟨1, 1, ['h'], none, [], 0, none, none⟩)],
     [(1, ⟨1, 1, ['h'], none, [], 0, none, none⟩)], 2⟩
    ⟨0, 2, ['h'], none, [], 0, none, none⟩
    ⟨1, 1, ['h'], none, [], 0, none, none⟩ rfl).1

/-! ### Claim C6 -/

/-- C6: a raw string that, after optional Bearer stripping, does not split
on the single separator into exactly two chunks is rejected as
TokenInvalid, for every storage state (no lookup happens). -/
theorem c6_bad_format_invalid (hashToken : Str → Str) (st : MemState)
    (now : Int) (raw : Str)
    (hn : (splitOnChar '|' (cutPref "Bearer ".data raw)).length ≠ 2) :
    validateToken hashToken st now raw = .error AuthErr.tokenInvalid := by
  rcases hs : splitOnChar '|' (cutPref "Bearer ".data raw) with _ | ⟨a, t1⟩
  · simp only [validateToken, hs]
  · rcases t1 with _ | ⟨b, t2⟩
    · simp only [validateToken, hs]
    · rcases t2 with _ | ⟨c, t3⟩
      · rw [hs] at hn; simp at hn
      · simp only [validateToken, hs]

/-- C6, witness: a separator-free string fails as TokenInvalid. -/
theorem c6_witness :
    validateToken (fun s => s) newMemoryDriver 0 ['a', 'b']
      = .error AuthErr.tokenInvalid :=
  c6_bad_format_invalid (fun s => s) newMemoryDriver 0 ['a', 'b'] (by decide)

/-! ### Claim C8 -/

/-- C8: with no storage backend configured, generator.Create fails with
the storage-driver-nil error before any record is built or persisted. -/
theorem c8_create_requires_storage (hashToken : Str → Str) (cfg : Config)
    (opts : TokenOptions) (buf : List Nat) (now : Int) :
    generatorCreate hashToken cfg none opts buf now
      = .error AuthErr.storageDriverNil := rfl

/-! ### Claim C9 -/

theorem applyOp_nextID_le (m : MemState) (op : MemOp) :
    m.nextID ≤ (m.applyOp op).nextID := by
  cases op with
  | store t =>
    show m.nextID ≤ ((m.storeToken t).1).nextID
    unfold MemState.storeToken
    by_cases hid : t.id = 0
    · simp only [hid, if_pos]; omega
    · simp [hid]
  | revoke h =>
    show m.nextID ≤ (match m.revokeToken h with
      | .ok m2 => m2
      | .error _ => m).nextID
    unfold MemState.revokeToken
    cases hl : alistLookup h m.tokensByHash with
    | none => simp [hl]
    | some tok => simp [hl]

theorem assignedIds_lb : ∀ (ops : List MemOp) (m : MemState) (x : Int),
    x ∈ assignedIds m ops → m.nextID ≤ x := by
  intro ops
  induction ops with
  | nil => intro m x hx; simp [assignedIds] at hx
  | cons op rest ih =>
    intro m x hx
    cases op with
    | store t =>
      by_cases hid : t.id = 0
      · simp only [assignedIds, if_pos hid, List.mem_cons] at hx
        rcases hx with h | h
        · exact le_of_eq h.symm
        · exact le_trans (applyOp_nextID_le m _) (ih _ _ h)
      · simp only [assignedIds, if_neg hid] at hx
        exact le_trans (applyOp_nextID_le m _) (ih _ _ hx)
    | revoke h2 =>
      simp only [assignedIds] at hx
      exact le_trans (applyOp_nextID_le m _) (ih _ _ hx)

/-! ### Claim C3 -/

/-- C3: for a stored record, the storage-level FindByHash and the
validator both fail with TokenExpired exactly when the record's expiry is
set and the current time is strictly after it; an absent expiry never
expires, and checking at or before the expiry succeeds — both layers use
the same strict comparison. -/
theorem c3_expired_iff_strict (hashToken : Str → Str) (st : MemState)
    (now : Int) (h : Str) (r : PersonalAccessToken)
    (hlook : alistLookup h st.tokensByHash = some r) (htok : r.token = h) :
    (st.findByHash now h = .error AuthErr.tokenExpired ↔
      ∃ e, r.expiresAt = some e ∧ now > e)
    ∧ (r.expiresAt = none → st.findByHash now h = .ok r)
    ∧ (∀ e, r.expiresAt = some e → now ≤ e → st.findByHash now h = .ok r)
    ∧ (∀ (raw a secret : Str),
        splitOnChar '|' (cutPref "Bearer ".data raw) = [a, secret] →
        hashToken secret = h →
        (validateToken hashToken st now raw = .error AuthErr.tokenExpired ↔
          ∃ e, r.expiresAt = some e ∧ now > e)) := by
  rcases hE : r.expiresAt with _ | e
  · have hfind : st.findByHash now h = .ok r := by
      unfold MemState.findByHash
      rw [hlook]
      simp [hE]
    refine ⟨by simp [hfind, hE], fun _ => hfind, ?_, ?_⟩
    · intro e he
      exact absurd he (by simp)
    · intro raw a secret hs hh
      have hv : validateToken hashToken st now raw = .ok r := by
        rw [validateToken_resolved hashToken st now raw hs, hh]
        simp only [hfind]
        rw [if_neg (not_not_intro htok)]
        simp [hE]
      simp [hv, hE]
  · by_cases hlt : now > e
    · have hfind : st.findByHash now h = .error AuthErr.tokenExpired := by
        unfold MemState.findByHash
        rw [hlook]
        simp [hE, hlt]
      refine ⟨by simp [hfind, hE, hlt],
        fun hnone => absurd hnone (by simp), ?_, ?_⟩
      · intro e2 he2 hle
        injection he2 with h3
        subst h3
        exact absurd hlt (not_lt.mpr hle)
      · intro raw a secret hs hh
        have hv : validateToken hashToken st now raw
            = .error AuthErr.tokenExpired := by
          rw [validateToken_resolved hashToken st now raw hs, hh]
          simp only [hfind]
        simp [hv, hE, hlt]
    · have hfind : st.findByHash now h = .ok r := by
        unfold MemState.findByHash
        rw [hlook]
        simp [hE, hlt]
      refine ⟨by simp [hfind, hE, hlt],
        fun hnone => absurd hnone (by simp),
        fun e2 he2 hle => hfind, ?_⟩
      intro raw a secret hs hh
      have hv : validateToken hashToken st now raw = .ok r := by
        rw [validateToken_resolved hashToken st now raw hs, hh]
        simp only [hfind]
        rw [if_neg (not_not_intro htok)]
        simp [hE, hlt]
      simp [hv, hE, hlt]

/-- C3, witness: a concrete token whose expiry 5 lies strictly before the
check time 10 is rejected as TokenExpired by the validator. -/
theorem c3_witness :
    validateToken (fun _ => ['k'])
        ⟨[(['k'], ⟨1, 7, ['k'], none, [], 0, some 5, none⟩)], [], 1⟩ 10
        ('a' :: '|' :: ['s']) = .error AuthErr.tokenExpired := by
  have h := (c3_expired_iff_strict (fun _ => ['k'])
    ⟨[(['k'], ⟨1, 7, ['k'], none, [], 0, some 5, none⟩)], [], 1⟩ 10 ['k']
    ⟨1, 7, ['k'], none, [], 0, some 5, none⟩ rfl rfl).2.2.2
    ('a' :: '|' :: ['s']) ['a'] ['s'] (by decide) rfl
  exact h.mpr ⟨5, rfl, by norm_num⟩

/-! ### Claim C5 -/

/-- C5: prepending one `"Bearer "` to any raw token string never changes
the validator's result — the optional prefix is stripped before parsing
(and when the remaining string carries yet another prefix, only the chunk
after the first separator matters, so the result still agrees). -/
theorem c5_bearer_transparent (hashToken : Str → Str) (st : MemState)
    (now : Int) (t : Str) :
    validateToken hashToken st now ("Bearer ".data ++ t) =
      validateToken hashToken st now t := by
  by_cases hp : isPrefixList "Bearer ".data t = true
  · obtain ⟨s, hs⟩ := exists_of_isPrefixList hp
    subst hs
    obtain ⟨h0, t0, hsp, hsp2⟩ :=
      splitOnChar_head_extend '|' "Bearer ".data s (by decide)
    rcases t0 with _ | ⟨sec, t1⟩
    · simp only [validateToken, cutPref_self_append, hsp, hsp2]
    · rcases t1 with _ | ⟨c3, t2⟩
      · simp only [validateToken, cutPref_self_append, hsp, hsp2]
      · simp only [validateToken, cutPref_self_append, hsp, hsp2]
  · have hp2 : isPrefixList "Bearer ".data t = false := by
      revert hp
      cases isPrefixList "Bearer ".data t <;> simp
    simp only [validateToken, cutPref_self_append, cutPref_of_neg hp2]

/-! ### Claim C10 -/

/-- The in-memory by-hash map is keyed by each record's own Token field. -/
def ByHashKeyed (m : MemState) : Prop :=
  ∀ p ∈ m.tokensByHash, p.2.token = p.1

theorem byHashKeyed_applyOp {m : MemState} (hm : ByHashKeyed m) (op : MemOp) :
    ByHashKeyed (m.applyOp op) := by
  cases op with
  | store t =>
    intro p hp
    simp only [MemState.applyOp, MemState.storeToken, List.mem_cons] at hp
    rcases hp with h | h
    · subst h; rfl
    · exact hm p h
  | revoke h =>
    intro p hp
    rcases hl : alistLookup h m.tokensByHash with _ | tok
    · simp only [MemState.applyOp, MemState.revokeToken, hl] at hp
      exact hm p hp
    · simp only [MemState.applyOp, MemState.revokeToken, hl] at hp
      exact hm p (alistErase_subset hp)

theorem reachable_byHashKeyed {m : MemState} (hr : Reachable m) :
    ByHashKeyed m := by
  obtain ⟨ops, hops⟩ := hr
  subst hops
  suffices hgen : ∀ (ops2 : List MemOp) (m0 : MemState), ByHashKeyed m0 →
      ByHashKeyed (runOps m0 ops2) from
    hgen ops newMemoryDriver (fun p hp => absurd hp (List.not_mem_nil p))
  intro ops2
  induction ops2 with
  | nil => exact fun m0 h => h
  | cons op rest ih => exact fun m0 h => ih _ (byHashKeyed_applyOp h op)

theorem findByHash_ok_token {m : MemState} (hk : ByHashKeyed m) {now : Int}
    {h : Str} {tok : PersonalAccessToken}
    (hf : m.findByHash now h = .ok tok) : tok.token = h := by
  unfold MemState.findByHash at hf
  rcases hl : alistLookup h m.tokensByHash with _ | t2
  · simp only [hl] at hf
    exact Except.noConfusion hf
  · simp only [hl] at hf
    have ht2 : t2.token = h := hk _ (alistLookup_mem hl)
    rcases hE : t2.expiresAt with _ | e
    · simp only [hE] at hf
      injection hf with h3
      subst h3
      exact ht2
    · simp only [hE] at hf
      by_cases hlt : now > e
      · rw [if_pos hlt] at hf
        exact Except.noConfusion hf
      · rw [if_neg hlt] at hf
        injection hf with h3
        subst h3
        exact ht2

/-- C10: over every reachable in-memory driver state, a successful
FindByHash returns a record whose Token equals the queried hash, and
consequently the validator's defensive hash-mismatch branch is
unreachable: the validator behaves identically with that branch removed. -/
theorem c10_find_returns_keyed_record (m : MemState) (hr : Reachable m) :
    (∀ (now : Int) (h : Str) (tok : PersonalAccessToken),
        m.findByHash now h = .ok tok → tok.token = h)
    ∧ (∀ (hashToken : Str → Str) (now : Int) (raw : Str),
        validateToken hashToken m now raw
          = validateTokenND hashToken m now raw) := by
  have hk := reachable_byHashKeyed hr
  refine ⟨fun now h tok hf => findByHash_ok_token hk hf, ?_⟩
  intro hashToken now raw
  rcases hs : splitOnChar '|' (cutPref "Bearer ".data raw) with _ | ⟨a, t1⟩
  · simp only [validateToken, validateTokenND, hs]
  · rcases t1 with _ | ⟨sec, t2⟩
    · simp only [validateToken, validateTokenND, hs]
    · rcases t2 with _ | _
      · simp only [validateToken, validateTokenND, hs]
        cases hf : m.findByHash now (hashToken sec) with
        | error e => simp only [hf]
        | ok tok =>
          simp only [hf]
          rw [if_neg (not_not_intro (findByHash_ok_token hk hf))]
      · simp only [validateToken, validateTokenND, hs]

/-- C10, witness: on a state reached by one store, the validator with and
without the defensive branch agree on a concrete raw string. -/
theorem c10_witness :
    validateToken (fun s => s)
        ((newMemoryDriver.storeToken ⟨0, 7, ['t'], none, [], 0, none, none⟩).1)
        0 ['q'] =
      validateTokenND (fun s => s)
        ((newMemoryDriver.storeToken ⟨0, 7, ['t'], none, [], 0, none, none⟩).1)
        0 ['q'] :=
  (c10_find_returns_keyed_record
    ((newMemoryDriver.storeToken ⟨0, 7, ['t'], none, [], 0, none, none⟩).1)
    ⟨[MemOp.store ⟨0, 7, ['t'], none, [], 0, none, none⟩], rfl⟩).2
    (fun s => s) 0 ['q']

/-- C9: over any sequence of store/revoke operations on a fresh in-memory
driver, the ids the driver assigns form a strictly increasing sequence —
so an assigned id is never reassigned and never reused, even after its
record is deleted. -/
theorem c9_assigned_ids_strictly_increasing (ops : List MemOp) :
    List.Pairwise (· < ·) (assignedIds newMemoryDriver ops) := by
  suffices hgen : ∀ (ops2 : List MemOp) (m : MemState),
      List.Pairwise (· < ·) (assignedIds m ops2) from hgen ops newMemoryDriver
  intro ops2
  induction ops2 with
  | nil => intro m; simp [assignedIds]
  | cons op rest ih =>
    intro m
    cases op with
    | store t =>
      by_cases hid : t.id = 0
      · simp only [assignedIds, if_pos hid]
        refine List.Pairwise.cons ?_ (ih _)
        intro x hx
        have h1 := assignedIds_lb rest (m.applyOp (.store t)) x hx
        have h2 : (m.applyOp (.store t)).nextID = m.nextID + 1 := by
          show ((m.storeToken t).1).nextID = m.nextID + 1
          unfold MemState.storeToken
          simp [hid]
        omega
      · simp only [assignedIds, if_neg hid]
        exact ih _
    | revoke h2 =>
      simp only [assignedIds]
      exact ih _

/-! ### Claim C1 -/

/-- C1 (amended): when the configured token prefix contains no separator
character, validating the string returned by a successful create (against
the post-create storage state, at the creation time) succeeds and returns
the stored record, whose UserId is the input UserId and whose Abilities
is the comma-join of the input abilities. -/
theorem c1_create_validate_roundtrip (hashToken : Str → Str) (cfg : Config)
    (opts : TokenOptions) (st : MemState) (buf : List Nat) (now : Int)
    (hpfx : '|' ∉ cfg.tokenPref) (hbuf : ∀ b ∈ buf, b < 256) :
    ∀ res st2,
      generatorCreate hashToken cfg (some st) opts buf now = .ok (res, st2) →
      ∃ tok, validateToken hashToken st2 now res.plainText = .ok tok ∧
        tok.userId = opts.userId ∧ tok.abilities = joinComma opts.abilities := by
  intro res st2 hc
  rw [generatorCreate_eq] at hc
  injection hc with hpair
  injection hpair with h1 h2
  subst h1
  subst h2
  refine ⟨createdRecord hashToken cfg st opts buf now, ?_, rfl, rfl⟩
  have hbar : '|' ∉ generateTokenString cfg buf :=
    bar_not_mem_generateTokenString hpfx hbuf
  have hexp : ∀ e,
      (createdRecord hashToken cfg st opts buf now).expiresAt = some e →
      now ≤ e := by
    intro e he
    by_cases hd : cfg.expireAt > 0
    · simp only [createdRecord, if_pos hd] at he
      injection he with h3
      omega
    · simp only [createdRecord, if_neg hd] at he
      exact absurd he (by simp)
  exact validateToken_cons_head hashToken
    (createdRecord hashToken cfg st opts buf now) st.tokensByHash
    ((st.nextID, createdRecord hashToken cfg st opts buf now)
      :: st.tokensByID)
    (st.nextID + 1) now st.nextID (generateTokenString cfg buf) hbar rfl hexp

/-- C1, counterexample to the claim as stated: with a configured token
prefix that itself contains the separator (here `a|b`), create succeeds
but the returned token splits into more than two chunks and validation
rejects it as TokenInvalid instead of returning the stored record. -/
theorem c1_counterexample :
    (generatorCreate (fun s => s) ⟨1, ['a', '|', 'b'], 0⟩
        (some newMemoryDriver) ⟨7, none, []⟩ [0] 0).toOption.map
        (fun p => validateToken (fun s => s) p.2 0 p.1.plainText)
      = some (.error AuthErr.tokenInvalid) := by decide

/-- C1, witness for the amended theorem: an empty prefix, one random
byte, no expiry; validation of the created token returns the stored
record for user 7. -/
theorem c1_witness :
    ∃ tok,
      validateToken (fun s => 'H' :: s)
          ((newMemoryDriver.storeToken
            { id := 0, userId := 7,
              token := 'H' :: generateTokenString ⟨1, [], 0⟩ [0],
              name := none, abilities := joinComma [], createdAt := 0,
              expiresAt := none, lastUsedAt := none }).1)
          0 (intDec 1 ++ '|' :: generateTokenString ⟨1, [], 0⟩ [0])
        = .ok tok ∧
      tok.userId = 7 ∧ tok.abilities = joinComma [] :=
  c1_create_validate_roundtrip (fun s => 'H' :: s) ⟨1, [], 0⟩ ⟨7, none, []⟩
    newMemoryDriver [0] 0 (by decide) (by decide)
    ⟨intDec 1 ++ '|' :: generateTokenString ⟨1, [], 0⟩ [0],
     'H' :: generateTokenString ⟨1, [], 0⟩ [0]⟩
    ((newMemoryDriver.storeToken
      { id := 0, userId := 7,
        token := 'H' :: generateTokenString ⟨1, [], 0⟩ [0],
        name := none, abilities := joinComma [], createdAt := 0,
        expiresAt := none, lastUsedAt := none }).1)
    rfl

/-! ### Claim C7 -/

/-- C7: a successfully created token string is the decimal id assigned by
storage, then the separator, then the configured prefix, then the
lowercase hex encoding of the tokenLength random bytes (two hex digits
per byte), then the minimal lowercase hex of the 32-bit CRC (Castagnoli)
of that hex-encoded secret. -/
theorem c7_token_string_format (hashToken : Str → Str) (cfg : Config)
    (opts : TokenOptions) (st : MemState) (buf : List Nat) (now : Int)
    (hlen : buf.length = cfg.tokenLength) (hbuf : ∀ b ∈ buf, b < 256) :
    ∀ res st2,
      generatorCreate hashToken cfg (some st) opts buf now = .ok (res, st2) →
      res.plainText = intDec st.nextID ++ '|' ::
          (cfg.tokenPref ++ hexEncodeBytes buf
            ++ natHex (crc32c (hexEncodeBytes buf)))
        ∧ (hexEncodeBytes buf).length = 2 * cfg.tokenLength
        ∧ (∀ c ∈ hexEncodeBytes buf, ∃ k, k < 16 ∧ c = digitChar k)
        ∧ crc32c (hexEncodeBytes buf) < 2 ^ 32 := by
  intro res st2 hc
  rw [generatorCreate_eq] at hc
  injection hc with hpair
  injection hpair with h1 h2
  subst h1
  exact ⟨rfl, by rw [hexEncodeBytes_length, hlen],
    hexEncodeBytes_chars hbuf, crc32c_lt _⟩

/-- C7, witness: one byte `0xAB`, empty prefix; the created string has
the documented shape and the checksum fits in 32 bits. -/
theorem c7_witness :
    intDec (1 : Int) ++ '|' :: generateTokenString ⟨1, [], 0⟩ [171] =
      intDec (1 : Int) ++ '|' ::
        ([] ++ hexEncodeBytes [171] ++ natHex (crc32c (hexEncodeBytes [171])))
    ∧ (hexEncodeBytes [171]).length = 2 * 1
    ∧ crc32c (hexEncodeBytes [171]) < 2 ^ 32 := by
  have h := c7_token_string_format (fun s => s) ⟨1, [], 0⟩ ⟨7, none, []⟩
    newMemoryDriver [171] 0 rfl (by decide)
    ⟨intDec 1 ++ '|' :: generateTokenString ⟨1, [], 0⟩ [171],
     generateTokenString ⟨1, [], 0⟩ [171]⟩
    ⟨[(generateTokenString ⟨1, [], 0⟩ [171],
       createdRecord (fun s => s) ⟨1, [], 0⟩ newMemoryDriver ⟨7, none, []⟩
         [171] 0)],
     [(1, createdRecord (fun s => s) ⟨1, [], 0⟩ newMemoryDriver ⟨7, none, []⟩
         [171] 0)], 2⟩
    rfl
  exact ⟨h.1, h.2.1, h.2.2.2⟩

end GoAuth
